import Mathlib

/-!
Verification development for the tag evaluator of dummy_data
(src/dummy_data/evaluators.py).

The Python module is shallowly embedded:

* TAG_PATTERN and ARG_PATTERN are replaced by executable matchers over
  List Char with the same backtracking order (lazy outer repetition of
  argument groups, greedy tokens tried longest first);
* documents are the inductive PyVal, with a constructor for the deferred
  controller values ("callables tagged with parent_function") that the
  external functions module may return; the controller behaviours
  themselves, like the function registry, are opaque parameters;
* str(), OrderedDict assignment and Python equality on keys are modelled
  by pyStr, odInsert and pyBeq;
* the evaluator threads an invocation counter through every registry
  call, so that functions whose result depends on when they are called
  are expressible, and takes a fuel argument that models Python's
  recursion limit (the code recurses through the opaque controllers, so
  there is no structural bound).
-/

namespace DummyData

/-- Python regex whitespace class restricted to ASCII, the alphabet the
documents use. -/
def isSpaceC (c : Char) : Bool :=
  c = ' ' || c = '\t' || c = '\n' || c = '\r' || c = '\x0b' || c = '\x0c'

/-- Python regex word class restricted to ASCII. -/
def isWordC (c : Char) : Bool :=
  c.isAlphanum || c = '_'

/-- Closing part of TAG_PATTERN: optional whitespace then the two
characters percent, right brace.  Whitespace and the percent sign are
disjoint, so the greedy run never backtracks. -/
def tryClose (s : List Char) : Option (List Char) :=
  match s.dropWhile isSpaceC with
  | '%' :: '\x7d' :: rest => some rest
  | _ => none

/-- Greedy non-whitespace token of an argument group, tried longest
first; each prefix length is handed back to the continuation, which
resumes the lazy argument loop. -/
def tryTokSplits (next : List Char → List Char → Option (List Char × List Char))
    (s1 ws acc tok : List Char) : Nat → Option (List Char × List Char)
  | 0 => none
  | l + 1 =>
    match next (s1.drop (l + 1)) (acc ++ ws ++ tok.take (l + 1)) with
    | some r => some r
    | none => tryTokSplits next s1 ws acc tok l

/-- Lazy argument run of TAG_PATTERN: try to close first, otherwise
consume one whitespace-then-token group and retry.  The fuel counts
argument groups; every group consumes at least one character, so the
caller's fuel (length of the remaining input plus one) is never the
binding constraint. -/
def matchArgs : Nat → List Char → List Char → Option (List Char × List Char)
  | 0, _, _ => none
  | fuel + 1, s, acc =>
    match tryClose s with
    | some rest => some (acc, rest)
    | none =>
      let ws := s.takeWhile isSpaceC
      let s1 := s.drop ws.length
      let tok := s1.takeWhile (fun c => !isSpaceC c)
      if tok.isEmpty then none
      else tryTokSplits (fun s2 acc2 => matchArgs fuel s2 acc2) s1 ws acc tok tok.length

/-- TAG_PATTERN anchored at the head of the input: open brace, percent,
optional whitespace, a nonempty word-character run (the function name;
the word boundaries of the pattern are implied by the neighbouring
characters), the lazily matched raw argument text, optional whitespace,
percent, close brace.  Returns the function name, the raw argument text
(with its leading whitespace, exactly as the named group captures it)
and the rest of the input. -/
def matchTagAt (s : List Char) : Option (String × String × List Char) :=
  match s with
  | '\x7b' :: '%' :: s1 =>
    let s2 := s1.dropWhile isSpaceC
    let fn := s2.takeWhile isWordC
    if fn.isEmpty then none
    else
      let s3 := s2.drop fn.length
      match matchArgs (s3.length + 1) s3 [] with
      | some (args, rest) => some (String.mk fn, String.mk args, rest)
      | none => none
  | _ => none

/-- One piece of a scanned string: a literal character outside every
match, or one whole tag match. -/
inductive Seg where
  | lit (c : Char)
  | tag (fn : String) (args : String)
deriving DecidableEq

/-- Left-to-right non-overlapping scan, the traversal order re.sub and
re.finditer share: try a match at every position, resume after the match
or advance one character.  The fuel is at least the input length plus
one at every call site, and every step consumes at least one character,
so the zero case is unreachable. -/
def scanAux : Nat → List Char → List Seg
  | 0, s => s.map Seg.lit
  | fuel + 1, s =>
    match matchTagAt s with
    | some (fn, args, rest) => Seg.tag fn args :: scanAux fuel rest
    | none =>
      match s with
      | [] => []
      | c :: t => Seg.lit c :: scanAux fuel t

/-- Decomposition of a string into literal characters and tag matches. -/
def segsOf (s : String) : List Seg :=
  scanAux (s.toList.length + 1) s.toList

/-- Escapes accepted by the quoted-string alternative of ARG_PATTERN. -/
def escSet (c : Char) : Bool :=
  c = '"' || c = '\\' || c = 'b' || c = 'f' || c = 'n' || c = 'r' || c = 't' || c = '/'

/-- Lower-case hexadecimal digit, as in the Unicode escape of
ARG_PATTERN. -/
def isHexL (c : Char) : Bool := c.isDigit || ('a' ≤ c && c ≤ 'f')

/-- Body-and-closing-quote of the quoted alternative, applied to the
characters after the opening quote.  The body may contain whitespace
(its plain-character class excludes only quotes and backslashes), so a
quoted token can span several whitespace-delimited runs.  The lazy body
stops at the first unescaped quote; if the trailing lookahead fails
there, no body alternative can consume a bare quote, so the whole
alternative fails.  Returns the consumed characters (closing quote
included) and the rest. -/
def qClose : List Char → Option (List Char × List Char)
  | [] => none
  | '"' :: rest =>
    match rest with
    | [] => some (['"'], [])
    | d :: _ => if isSpaceC d then some (['"'], rest) else none
  | '\\' :: c :: t =>
    if escSet c then
      match qClose t with
      | some (tk, r) => some ('\\' :: c :: tk, r)
      | none => none
    else if c = 'u' then
      match t with
      | a :: b :: d :: e :: t2 =>
        if isHexL a && isHexL b && isHexL d && isHexL e then
          match qClose t2 with
          | some (tk, r) => some ('\\' :: 'u' :: a :: b :: d :: e :: tk, r)
          | none => none
        else none
      | _ => none
    else none
  | ['\\'] => none
  | c :: t =>
    match qClose t with
    | some (tk, r) => some (c :: tk, r)
    | none => none

/-- First alternative of ARG_PATTERN: a signed number.  Both lookarounds
force the match to cover one whole whitespace-delimited token, so the
alternative holds of the token as a whole: optional minus, an integer
part with no illegal leading zero, an optional fraction, an optional
exponent, nothing left over. -/
def isNumTok (tok : List Char) : Bool :=
  let t := match tok with
    | '-' :: r => r
    | r => r
  match t with
  | [] => false
  | c :: rest =>
    if !c.isDigit then false
    else if c = '0' && (match rest with | d :: _ => d.isDigit | [] => false) then false
    else
      let ds := t.takeWhile Char.isDigit
      let r1 := t.drop ds.length
      let r2 : Option (List Char) :=
        match r1 with
        | '.' :: r =>
          let fs := r.takeWhile Char.isDigit
          if fs.isEmpty then Option.none else some (r.drop fs.length)
        | r => some r
      match r2 with
      | Option.none => false
      | some r =>
        let r3 : Option (List Char) :=
          match r with
          | e :: rest2 =>
            if e = 'e' || e = 'E' then
              let rest3 := match rest2 with
                | sgn :: rr => if sgn = '+' || sgn = '-' then rr else rest2
                | [] => rest2
              let es := rest3.takeWhile Char.isDigit
              if es.isEmpty then Option.none else some (rest3.drop es.length)
            else some (e :: rest2)
          | [] => some []
        match r3 with
        | some [] => true
        | _ => false

/-- Third alternative of ARG_PATTERN: a bare token, a run without
whitespace, quotes or backslashes.  The lazy repetition together with
the trailing lookahead forces the whole whitespace-delimited run. -/
def isBareTok (tok : List Char) : Bool :=
  !tok.isEmpty && tok.all (fun c => c ≠ '"' && c ≠ '\\' && !isSpaceC c)

/-- ARG_PATTERN at one boundary position, alternatives in the pattern's
order.  A number and a bare token are anchored by the whitespace
lookarounds to the maximal non-whitespace run starting here (and a run
opening with a quote fits neither), so each accepts that whole run or
fails; a quoted token starts with a quote, which the other two
alternatives exclude, and may span whitespace. -/
def argTokenAt (s : List Char) : Option (List Char × List Char) :=
  match s with
  | '"' :: t =>
    match qClose t with
    | some (tk, rest) => some ('"' :: tk, rest)
    | none => none
  | _ =>
    let tok := s.takeWhile (fun c => !isSpaceC c)
    let rest := s.drop tok.length
    if tok.isEmpty then none
    else if isNumTok tok then some (tok, rest)
    else if isBareTok tok then some (tok, rest)
    else none

/-- ARG_PATTERN.findall scan: a token may only start where the previous
character is whitespace (or at the start); after a failed position or a
consumed character the boundary flag is recomputed.  Fuel as in
scanAux. -/
def argFindallAux : Nat → List Char → Bool → List String
  | 0, _, _ => []
  | fuel + 1, s, boundary =>
    match s with
    | [] => []
    | c :: t =>
      if boundary then
        match argTokenAt s with
        | some (tok, rest) => String.mk tok :: argFindallAux fuel rest false
        | none => argFindallAux fuel t (isSpaceC c)
      else argFindallAux fuel t (isSpaceC c)

/-- All argument tokens of a raw argument string. -/
def argFindall (s : List Char) : List String :=
  argFindallAux (s.length + 1) s true

/-- Quote stripping applied to every found token: x[1:-1] when the first
and the last character are quotes (evaluators.py line 59). -/
def stripQuotes (s : String) : String :=
  match s.toList with
  | [] => s
  | c :: t => if c = '"' && t.getLastD c = '"' then String.mk t.dropLast else s

mutual
/-- A Python value as the evaluator sees it: the four document shapes,
the two extra scalars that registry functions may produce, and the
deferred controller values, callables carrying the name of the function
that made them (their behaviour lives in the opaque parameter C).
Mappings and sequences carry their own list types so that every
recursion over values is structural. -/
inductive PyVal (C : Type) where
  | obj (pairs : PyPairs C)
  | arr (elems : PyList C)
  | str (s : String)
  | int (n : Int)
  | bool (b : Bool)
  | none
  | callable (parent_function : String) (c : C)

/-- A Python list of values. -/
inductive PyList (C : Type) where
  | nil
  | cons (hd : PyVal C) (tl : PyList C)

/-- The ordered key-value pairs of a mapping. -/
inductive PyPairs (C : Type) where
  | nil
  | cons (key val : PyVal C) (tl : PyPairs C)
end

/-- List concatenation on PyList. -/
def PyList.append {C : Type} : PyList C → PyList C → PyList C
  | .nil, ys => ys
  | .cons x xs, ys => .cons x (PyList.append xs ys)

instance {C : Type} : Append (PyList C) := ⟨PyList.append⟩

/-- Embedding of a Lean list of values. -/
def PyList.ofList {C : Type} : List (PyVal C) → PyList C
  | [] => .nil
  | x :: xs => .cons x (PyList.ofList xs)

/-- Embedding of a Lean list of pairs. -/
def PyPairs.ofList {C : Type} : List (PyVal C × PyVal C) → PyPairs C
  | [] => .nil
  | (k, v) :: ps => .cons k v (PyPairs.ofList ps)

/-- Length of a Python list. -/
def pyLen {C : Type} : PyList C → Nat
  | .nil => 0
  | .cons _ tl => pyLen tl + 1

/-- Length of a mapping's pair list. -/
def pairsLen {C : Type} : PyPairs C → Nat
  | .nil => 0
  | .cons _ _ tl => pairsLen tl + 1

/-- List-shaped induction for PyPairs (the mutual recursor has several
motives, so the one-motive principle is derived by induction on the
length). -/
lemma pairsInductionOn {C : Type} {motive : PyPairs C → Prop}
    (nil : motive PyPairs.nil)
    (cons : ∀ k v tl, motive tl → motive (PyPairs.cons k v tl))
    (ps : PyPairs C) : motive ps := by
  have main : ∀ (n : Nat) (qs : PyPairs C), pairsLen qs ≤ n → motive qs := by
    intro n
    induction n with
    | zero =>
      intro qs h
      cases qs with
      | nil => exact nil
      | cons k v tl => simp [pairsLen] at h
    | succ n ihn =>
      intro qs h
      cases qs with
      | nil => exact nil
      | cons k v tl =>
        refine cons k v tl (ihn tl ?_)
        simp only [pairsLen] at h
        omega
  exact main (pairsLen ps) ps (Nat.le_refl _)

/-- List-shaped induction for PyList, derived the same way. -/
lemma pyListInductionOn {C : Type} {motive : PyList C → Prop}
    (nil : motive PyList.nil)
    (cons : ∀ x tl, motive tl → motive (PyList.cons x tl))
    (xs : PyList C) : motive xs := by
  have main : ∀ (n : Nat) (ys : PyList C), pyLen ys ≤ n → motive ys := by
    intro n
    induction n with
    | zero =>
      intro ys h
      cases ys with
      | nil => exact nil
      | cons y tl => simp [pyLen] at h
    | succ n ihn =>
      intro ys h
      cases ys with
      | nil => exact nil
      | cons y tl =>
        refine cons y tl (ihn tl ?_)
        simp only [pyLen] at h
        omega
  exact main (pyLen xs) xs (Nat.le_refl _)

/-- hasattr(x, quoted call attribute): in this model only the deferred
controller values are callable. -/
def hasCall {C : Type} : PyVal C → Bool
  | .callable _ _ => true
  | _ => false

mutual
/-- Python equality on values, with cEq deciding equality of the opaque
controller payloads. -/
def pyBeq {C : Type} (cEq : C → C → Bool) : PyVal C → PyVal C → Bool
  | .obj ps, .obj qs => pyBeqPairs cEq ps qs
  | .arr xs, .arr ys => pyBeqList cEq xs ys
  | .str s, .str t => s == t
  | .int m, .int n => m == n
  | .bool x, .bool y => x == y
  | .none, .none => true
  | .callable f c, .callable g d => f == g && cEq c d
  | _, _ => false

/-- Elementwise Python equality of lists. -/
def pyBeqList {C : Type} (cEq : C → C → Bool) : PyList C → PyList C → Bool
  | .nil, .nil => true
  | .cons x xs, .cons y ys => pyBeq cEq x y && pyBeqList cEq xs ys
  | _, _ => false

/-- Pairwise Python equality of mapping contents. -/
def pyBeqPairs {C : Type} (cEq : C → C → Bool) : PyPairs C → PyPairs C → Bool
  | .nil, .nil => true
  | .cons k v tl, .cons k2 v2 tl2 => pyBeq cEq k k2 && pyBeq cEq v v2 && pyBeqPairs cEq tl tl2
  | _, _ => false
end

/-- Key membership test of the mapping model. -/
def pairsHasKey {C : Type} (beq : PyVal C → PyVal C → Bool) : PyPairs C → PyVal C → Bool
  | .nil, _ => false
  | .cons key _ tl, k => beq key k || pairsHasKey beq tl k

/-- Value replacement at an existing key, keeping the stored key and its
position. -/
def replaceKey {C : Type} (beq : PyVal C → PyVal C → Bool) :
    PyPairs C → PyVal C → PyVal C → PyPairs C
  | .nil, _, _ => .nil
  | .cons key val tl, k, v =>
    if beq key k then .cons key v (replaceKey beq tl k v)
    else .cons key val (replaceKey beq tl k v)

/-- OrderedDict assignment: an existing equal key keeps its position and
gets the new value, a new key is appended. -/
def odInsert {C : Type} (beq : PyVal C → PyVal C → Bool)
    (m : PyPairs C) (k v : PyVal C) : PyPairs C :=
  if pairsHasKey beq m k then replaceKey beq m k v
  else
    match m with
    | .nil => .cons k v .nil
    | .cons key val tl => .cons key val (odInsert beq tl k v)

mutual
/-- Python repr; strOfCtrl renders a controller value the way str
renders the underlying closure object. -/
def pyRepr {C : Type} (strOfCtrl : C → String) : PyVal C → String
  | .obj ps => "\x7b" ++ pyReprPairs strOfCtrl ps ++ "\x7d"
  | .arr xs => "[" ++ pyReprList strOfCtrl xs ++ "]"
  | .str s => "'" ++ s ++ "'"
  | .int n => toString n
  | .bool b => cond b "True" "False"
  | .none => "None"
  | .callable _ c => strOfCtrl c

/-- Comma-separated repr of list elements. -/
def pyReprList {C : Type} (strOfCtrl : C → String) : PyList C → String
  | .nil => ""
  | .cons x .nil => pyRepr strOfCtrl x
  | .cons x tl => pyRepr strOfCtrl x ++ ", " ++ pyReprList strOfCtrl tl

/-- Comma-separated repr of mapping pairs. -/
def pyReprPairs {C : Type} (strOfCtrl : C → String) : PyPairs C → String
  | .nil => ""
  | .cons k v .nil => pyRepr strOfCtrl k ++ ": " ++ pyRepr strOfCtrl v
  | .cons k v tl =>
    pyRepr strOfCtrl k ++ ": " ++ pyRepr strOfCtrl v ++ ", " ++ pyReprPairs strOfCtrl tl
end

/-- Python str as used by the coercion in call_function: identity on
strings, repr-style rendering otherwise. -/
def pyStr {C : Type} (strOfCtrl : C → String) : PyVal C → String
  | .str s => s
  | v => pyRepr strOfCtrl v

/-- Invocation counter threaded through every registry call, making
call-order-dependent functions expressible. -/
abbrev Counter := Nat

/-- The type of evaluate_parsed: node, allow_callable, iteration,
counter in, value and counter out or a raised error message. -/
abbrev EvalFn (C : Type) :=
  PyVal C → Bool → Option Nat → Counter → Except String (PyVal C × Counter)

/-- The function registry (the functions module): name to callable, the
callable taking the stripped argument tokens, the iteration keyword and
the invocation counter. -/
abbrev Funcs (C : Type) :=
  String → Option (List String → Option Nat → Counter → PyVal C)

/-- Second-phase behaviour of a deferred controller value: it receives
the raw node the sequence evaluator hands it (the single next element
for repeat, the list of the remaining elements for random), the
evaluator itself as callback, and the counter, and produces a finished
list of evaluated values. -/
abbrev RunCtrl (C : Type) :=
  C → PyVal C → EvalFn C → Counter → Except String (PyList C × Counter)

/-- Message of the DDEvaluatorException raised on registry lookup
failure (evaluators.py lines 66 to 70). -/
def unknownFunctionMsg (fn : String) : String :=
  "attempted call to non-existent function " ++ fn

/-- Message of the DDEvaluatorException raised by the illegal-location
check (evaluators.py lines 71 to 76). -/
def illegalLocationMsg (fn : String) : String :=
  "function " ++ fn ++ " called from illegal location"

/-- Message of the DDEvaluatorException raised when a controller value
appears at the end of an array (evaluators.py lines 105 to 110). -/
def endOfArrayMsg (fn : String) : String :=
  "invalid use of " ++ fn ++ " function at end of array"

/-- Stand-in for Python's RecursionError when the fuel runs out. -/
def fuelMsg : String := "maximum recursion depth exceeded"

/-- Unreachable branch of the TypeError fallback (search cannot fail
where sub just raised on a match). -/
def searchNoneMsg : String := "tag search returned no match"

/-- Argument tokens of one matched tag: findall over the raw argument
text, then quote stripping (evaluators.py lines 58 to 59). -/
def tagArgs (argsRaw : String) : List String :=
  (argFindall argsRaw.toList).map stripQuotes

/-- call_function (evaluators.py lines 54 to 79): find the argument
tokens, strip quotes, look the function up (AttributeError becomes the
unknown-function error), call it, run the illegal-location check - on
parsedV, the node the enclosing evaluate_parsed received, exactly as the
source tests parsed rather than the returned value - and coerce the
value with str unless the match spans the whole string. -/
def callFunction {C : Type} (funcs : Funcs C) (strOfCtrl : C → String) (parsedV : PyVal C)
    (allow_callable : Bool) (iteration : Option Nat)
    (fn argsRaw : String) (wholeMatch : Bool) (cnt : Counter) :
    Except String (PyVal C × Counter) :=
  let args := tagArgs argsRaw
  match funcs fn with
  | Option.none => .error (unknownFunctionMsg fn)
  | some f =>
    let value := f args iteration cnt
    if hasCall parsedV && !allow_callable then
      .error (illegalLocationMsg fn)
    else
      .ok (if wholeMatch then value else .str (pyStr strOfCtrl value), cnt + 1)

/-- True of the segment list of a string whose single match spans the
whole string: exactly one tag and nothing else. -/
def isSingleTag : List Seg → Bool
  | [Seg.tag _ _] => true
  | _ => false

/-- The first match, as TAG_PATTERN.search finds it. -/
def firstTag : List Seg → Option (String × String)
  | [] => Option.none
  | Seg.tag f a :: _ => some (f, a)
  | Seg.lit _ :: tl => firstTag tl

/-- Outcome of the re.sub attempt: the substituted text, or the
TypeError re.sub raises when the replacement callback returned a
non-string (carrying the counter after the call that returned it). -/
inductive SubRes where
  | done (out : List Char) (cnt : Counter)
  | typeErr (cnt : Counter)

/-- re.sub(TAG_PATTERN, call_function, parsed): walk the scan, copy
literal characters, replace each match by the callback result, and
raise TypeError the moment a replacement is not a string (only possible
for a whole-string match, since every other result was coerced). -/
def reSub {C : Type} (funcs : Funcs C) (strOfCtrl : C → String) (parsedV : PyVal C)
    (allow_callable : Bool) (iteration : Option Nat) (single : Bool) :
    List Seg → Counter → List Char → Except String SubRes
  | [], cnt, out => .ok (.done out cnt)
  | Seg.lit ch :: tl, cnt, out =>
    reSub funcs strOfCtrl parsedV allow_callable iteration single tl cnt (out ++ [ch])
  | Seg.tag f a :: tl, cnt, out =>
    match callFunction funcs strOfCtrl parsedV allow_callable iteration f a single cnt with
    | .error e => .error e
    | .ok (v, cnt2) =>
      match v with
      | .str sv =>
        reSub funcs strOfCtrl parsedV allow_callable iteration single tl cnt2 (out ++ sv.toList)
      | _ => .ok (.typeErr cnt2)

/-- String branch of evaluate_parsed (lines 125 to 130): try the
substitution scan; on the TypeError that a non-string whole-match value
provokes, fall back to resolving the searched match directly, so the
raw value is returned and the function is called a second time.  A
match is whole exactly when the scan is one tag segment and nothing
else. -/
def evalString {C : Type} (funcs : Funcs C) (strOfCtrl : C → String) (s : String)
    (allow_callable : Bool) (iteration : Option Nat) (cnt : Counter) :
    Except String (PyVal C × Counter) :=
  let segs := segsOf s
  let single := isSingleTag segs
  match reSub funcs strOfCtrl (.str s) allow_callable iteration single segs cnt [] with
  | .error e => .error e
  | .ok (.done out cnt2) => .ok (.str (String.mk out), cnt2)
  | .ok (.typeErr cnt2) =>
    match firstTag segs with
    | some (f, a) => callFunction funcs strOfCtrl (.str s) allow_callable iteration f a single cnt2
    | Option.none => .error searchNoneMsg

/-- evaluate_object (lines 81 to 90): each key and value evaluated with
the current iteration (allow_callable left at its False default), the
pair assigned into a fresh OrderedDict in original order. -/
def evalObject {C : Type} (beq : PyVal C → PyVal C → Bool) (eval : EvalFn C) :
    PyPairs C → Option Nat → Counter → PyPairs C →
    Except String (PyVal C × Counter)
  | .nil, _, cnt, acc => .ok (.obj acc, cnt)
  | .cons k v tl, it, cnt, acc =>
    match eval k false it cnt with
    | .error e => .error e
    | .ok (ek, c1) =>
      match eval v false it c1 with
      | .error e => .error e
      | .ok (ev, c2) => evalObject beq eval tl it c2 (odInsert beq acc ek ev)

/-- evaluate_array (lines 92 to 120): cursor walk with allow_callable
set and iteration equal to the position.  A callable result with no
following element is the end-of-array error; a repeat controller gets
the raw next element and the evaluator, its results are appended and
the cursor advances two; a random controller gets the raw remainder and
the evaluator, and its result is returned as the whole value of the
array - the accumulated prefix is dropped by the plain return of line
115; a callable with any other origin is consumed without output.  The
loop fuel falls by one per iteration while at least one element is
consumed, so the fuel the caller passes (list length plus one) never
runs out. -/
def evalArray {C : Type} (runCtrl : RunCtrl C) (eval : EvalFn C) :
    Nat → PyList C → Nat → Counter → PyList C →
    Except String (PyVal C × Counter)
  | 0, _, _, _, _ => .error fuelMsg
  | _ + 1, .nil, _, cnt, acc => .ok (.arr acc, cnt)
  | f + 1, .cons x rest, i, cnt, acc =>
    match eval x true (some i) cnt with
    | .error e => .error e
    | .ok (item, c1) =>
      match item with
      | .callable name c =>
        match rest with
        | .nil => .error (endOfArrayMsg name)
        | .cons y rest2 =>
          if name = "repeat" then
            match runCtrl c y eval c1 with
            | .error e => .error e
            | .ok (vals, c2) => evalArray runCtrl eval f rest2 (i + 2) c2 (acc ++ vals)
          else if name = "random" then
            match runCtrl c (.arr (.cons y rest2)) eval c1 with
            | .error e => .error e
            | .ok (vals, c2) => .ok (.arr vals, c2)
          else evalArray runCtrl eval f (.cons y rest2) (i + 1) c1 acc
      | _ => evalArray runCtrl eval f rest (i + 1) c1 (acc ++ .cons item .nil)

/-- evaluate_parsed (lines 50 to 131): dispatch on the node shape; any
node that is not a mapping, a sequence or a string is returned as is.
The fuel falls by one per recursion level; the callback handed to the
controllers is the evaluator at the smaller fuel. -/
def evalP {C : Type} (beq : PyVal C → PyVal C → Bool) (funcs : Funcs C)
    (runCtrl : RunCtrl C) (strOfCtrl : C → String) :
    Nat → PyVal C → Bool → Option Nat → Counter → Except String (PyVal C × Counter)
  | 0, _, _, _, _ => .error fuelMsg
  | fuel + 1, parsed, allow_callable, iteration, cnt =>
    match parsed with
    | .obj ps =>
      evalObject beq (fun p b i c => evalP beq funcs runCtrl strOfCtrl fuel p b i c)
        ps iteration cnt .nil
    | .arr es =>
      evalArray runCtrl (fun p b i c => evalP beq funcs runCtrl strOfCtrl fuel p b i c)
        (pyLen es + 1) es 0 cnt .nil
    | .str s => evalString funcs strOfCtrl s allow_callable iteration cnt
    | other => .ok (other, cnt)

/-- Top-level call: allow_callable and iteration at their defaults, the
invocation counter starting at zero. -/
def evaluate {C : Type} (cEq : C → C → Bool) (funcs : Funcs C)
    (runCtrl : RunCtrl C) (strOfCtrl : C → String) (fuel : Nat) (d : PyVal C) :
    Except String (PyVal C × Counter) :=
  evalP (pyBeq cEq) funcs runCtrl strOfCtrl fuel d false Option.none 0

/-! ## Concrete instances used by witnesses and counterexamples

A registry over the trivial controller-payload type: num yields a
number, seq yields 7, it reports the iteration keyword it received,
random and repeat are controller factories returning deferred callables
tagged with their own name. -/

/-- Sample function registry over the Unit controller payload. -/
def exFuncs : Funcs Unit := fun n =>
  if n = "num" then some (fun _ _ _ => .int 42)
  else if n = "it" then
    some (fun _ it _ => match it with | some i => .int i | Option.none => .str "none")
  else if n = "seq" then some (fun _ _ _ => .int 7)
  else if n = "tick" then some (fun _ _ cnt => .int (100 + cnt))
  else if n = "random" then some (fun _ _ _ => .callable "random" ())
  else if n = "repeat" then some (fun _ _ _ => .callable "repeat" ())
  else Option.none

/-- Sample controller behaviour: ignore the input and produce the one
element picked. -/
def exRun : RunCtrl Unit := fun _ _ _ cnt => .ok (.cons (.str "picked") .nil, cnt)

/-- Sample controller behaviour of a three-fold repeat: evaluate the
template once per copy with its own iteration index. -/
def exRunRepeat : RunCtrl Unit := fun _ tmpl ev cnt =>
  match ev tmpl false (some 0) cnt with
  | .error e => .error e
  | .ok (v0, c0) =>
    match ev tmpl false (some 1) c0 with
    | .error e => .error e
    | .ok (v1, c1) =>
      match ev tmpl false (some 2) c1 with
      | .error e => .error e
      | .ok (v2, c2) => .ok (.cons v0 (.cons v1 (.cons v2 .nil)), c2)

/-- Rendering of the Unit controller payload. -/
def exStr : Unit → String := fun _ => "ctrl"

/-- Payload equality on Unit. -/
def exBeq : Unit → Unit → Bool := fun _ _ => true

/-- Top-level sample evaluation. -/
def exEval (d : PyVal Unit) : Except String (PyVal Unit × Counter) :=
  evaluate exBeq exFuncs exRun exStr 10 d

/-- Sample evaluation with the repeating controller behaviour. -/
def exEvalRepeat (d : PyVal Unit) : Except String (PyVal Unit × Counter) :=
  evaluate exBeq exFuncs exRunRepeat exStr 10 d


/-! ## Claims C1, C2, C3, C7: the sequence control-flow protocol -/

/-- C1 (code bug witness): evaluating the sequence of "a", a random
tag and "b" returns only the controller result; the already evaluated
prefix "a" is discarded by the plain return of evaluators.py line 115,
while the specification says the output is the evaluated prefix
followed by the controller result. -/
theorem c1_random_drops_evaluated_head :
    exEval (.arr (.cons (.str "a")
        (.cons (.str "\x7b%random%\x7d") (.cons (.str "b") .nil))))
      = .ok (.arr (.cons (.str "picked") .nil), 2)
    ∧ ∀ cnt, exEval (.arr (.cons (.str "a")
        (.cons (.str "\x7b%random%\x7d") (.cons (.str "b") .nil))))
      ≠ .ok (.arr (.cons (.str "a") (.cons (.str "picked") .nil)), cnt) := by
  refine ⟨rfl, ?_⟩
  intro cnt h
  rw [show exEval (.arr (.cons (.str "a")
      (.cons (.str "\x7b%random%\x7d") (.cons (.str "b") .nil))))
      = .ok (.arr (.cons (.str "picked") .nil), 2) from rfl] at h
  exact absurd h (by simp)

/-- C2 (code bug witness): a tag whose function returns a deferred
controller value, standing as a mapping value, does not raise the
illegal-location error: the guard of evaluators.py lines 71 to 76 tests
parsed - the string under evaluation, never callable - instead of the
returned value, so the deferred callable lands in the mapping and the
evaluation succeeds. -/
theorem c2_controller_survives_as_mapping_value :
    exEval (.obj (.cons (.str "k") (.str "\x7b%repeat 3%\x7d") .nil))
      = .ok (.obj (.cons (.str "k") (.callable "repeat" ()) .nil), 2)
    ∧ ∀ e, exEval (.obj (.cons (.str "k") (.str "\x7b%repeat 3%\x7d") .nil))
      ≠ .error e := by
  refine ⟨rfl, ?_⟩
  intro e h
  rw [show exEval (.obj (.cons (.str "k") (.str "\x7b%repeat 3%\x7d") .nil))
      = .ok (.obj (.cons (.str "k") (.callable "repeat" ()) .nil), 2) from rfl] at h
  exact absurd h (by simp)

/-- C3: when the element at the cursor evaluates to a deferred
controller tagged repeat and another element follows, the sequence
evaluator invokes the controller behaviour on the raw unevaluated next
element together with the evaluation callback, appends every element of
the returned sequence to the output, and continues after both consumed
positions with the cursor advanced by exactly two. -/
theorem c3_repeat_consumes_two_positions {C : Type} (runCtrl : RunCtrl C)
    (eval : EvalFn C) (f i : Nat) (x y : PyVal C) (rest acc vals : PyList C)
    (cnt c1 c2 : Counter) (c : C)
    (hx : eval x true (some i) cnt = .ok (.callable "repeat" c, c1))
    (hr : runCtrl c y eval c1 = .ok (vals, c2)) :
    evalArray runCtrl eval (f + 1) (.cons x (.cons y rest)) i cnt acc
      = evalArray runCtrl eval f rest (i + 2) c2 (acc ++ vals) := by
  simp [evalArray, hx, hr]

/-- C3 witness: a repeat tag followed by the template "X", with a
three-fold controller behaviour, takes one protocol step to the state
after both positions with the three evaluated copies appended. -/
theorem c3_repeat_consumes_two_positions_witness :
    evalArray exRunRepeat (fun p b i c => evalP (pyBeq exBeq) exFuncs exRunRepeat exStr 5 p b i c)
      3 (.cons (.str "\x7b%repeat 3%\x7d") (.cons (.str "X") .nil)) 0 0 .nil
      = evalArray exRunRepeat (fun p b i c => evalP (pyBeq exBeq) exFuncs exRunRepeat exStr 5 p b i c)
        2 .nil 2 2 (PyList.nil ++ (.cons (.str "X") (.cons (.str "X") (.cons (.str "X") .nil)))) :=
  c3_repeat_consumes_two_positions exRunRepeat _ 2 0 _ _ .nil .nil _ 0 2 2 () rfl rfl

/-- C7: when the element at the cursor evaluates to a deferred
controller value of any origin and no element follows, the sequence
evaluator fails with the end-of-array error naming that origin. -/
theorem c7_controller_at_sequence_end_fails {C : Type} (runCtrl : RunCtrl C)
    (eval : EvalFn C) (f i : Nat) (x : PyVal C) (acc : PyList C)
    (cnt c1 : Counter) (name : String) (c : C)
    (hx : eval x true (some i) cnt = .ok (.callable name c, c1)) :
    evalArray runCtrl eval (f + 1) (.cons x .nil) i cnt acc
      = .error (endOfArrayMsg name) := by
  simp [evalArray, hx]

/-- C7 witness: a random tag as the last element of a sequence fails
with the end-of-array error naming random. -/
theorem c7_controller_at_sequence_end_fails_witness :
    evalArray exRun (fun p b i c => evalP (pyBeq exBeq) exFuncs exRun exStr 5 p b i c)
      3 (.cons (.str "\x7b%random%\x7d") .nil) 0 0 .nil
      = .error (endOfArrayMsg "random") :=
  c7_controller_at_sequence_end_fails exRun _ 2 0 _ .nil 0 2 "random" () rfl

/-! ## Claims C4, C10, C6: string evaluation -/

/-- String-constructor test used to state the whole-match fallback. -/
def isStrVal {C : Type} : PyVal C → Bool
  | .str _ => true
  | _ => false

/-- Rebuilding a string from its own characters is the identity. -/
@[simp] lemma stringMk_toList (s : String) : String.mk s.toList = s := rfl

/-- The same identity stated on the data field. -/
@[simp] lemma stringMk_data (s : String) : String.mk s.data = s := rfl

/-- Evaluation of a string that is exactly one tag: if the function
returns a string the substitution result is that string after one call;
otherwise the substitution raises TypeError and the fallback returns
the raw value of a second call. -/
lemma evalString_single_tag {C : Type} (funcs : Funcs C) (strOfCtrl : C → String)
    (s fn a : String) (F : List String → Option Nat → Counter → PyVal C)
    (ac : Bool) (it : Option Nat) (cnt : Counter)
    (hseg : segsOf s = [Seg.tag fn a])
    (hf : funcs fn = some F) :
    evalString funcs strOfCtrl s ac it cnt =
      match F (tagArgs a) it cnt with
      | .str sv => .ok (.str sv, cnt + 1)
      | _ => .ok (F (tagArgs a) it (cnt + 1), cnt + 2) := by
  cases hv : F (tagArgs a) it cnt <;>
    simp [evalString, hseg, isSingleTag, reSub, callFunction, hf, hv, hasCall, firstTag]

/-- C4: a text node that is exactly one tag evaluates to the registered
function's raw return value verbatim, numbers included, whenever the
function's value does not depend on the invocation counter. -/
theorem c4_whole_tag_returns_raw_value {C : Type} (beq : PyVal C → PyVal C → Bool)
    (funcs : Funcs C) (runCtrl : RunCtrl C) (strOfCtrl : C → String)
    (n : Nat) (s fn a : String) (F : List String → Option Nat → Counter → PyVal C)
    (ac : Bool) (it : Option Nat) (cnt : Counter)
    (hseg : segsOf s = [Seg.tag fn a])
    (hf : funcs fn = some F)
    (hpure : ∀ c1 c2 : Counter, F (tagArgs a) it c1
        = F (tagArgs a) it c2) :
    ∃ cnt2, evalP beq funcs runCtrl strOfCtrl (n + 1) (.str s) ac it cnt
      = .ok (F (tagArgs a) it cnt, cnt2) := by
  have h := evalString_single_tag funcs strOfCtrl s fn a F ac it cnt hseg hf
  have hstr : evalP beq funcs runCtrl strOfCtrl (n + 1) (.str s) ac it cnt
      = evalString funcs strOfCtrl s ac it cnt := by simp [evalP]
  cases hv : F (tagArgs a) it cnt
  case str sv => exact ⟨cnt + 1, by rw [hstr, h, hv]⟩
  all_goals exact ⟨cnt + 2, by rw [hstr, h, hv, hpure (cnt + 1) cnt, hv]⟩

/-- C4 witness: the tag of num, registered to return the number 42,
evaluates to the number 42 and not to its string form. -/
theorem c4_whole_tag_returns_raw_value_witness :
    ∃ cnt2, evalP (pyBeq exBeq) exFuncs exRun exStr 3 (.str "\x7b%num%\x7d")
      false Option.none 0 = .ok (.int 42, cnt2) :=
  c4_whole_tag_returns_raw_value (pyBeq exBeq) exFuncs exRun exStr 2
    "\x7b%num%\x7d" "num" "" _ false Option.none 0 rfl rfl (fun _ _ => rfl)

/-- C10: on a text node that is exactly one tag whose function returns
a non-string, the evaluator calls the function twice - once in the
substitution attempt, once in the whole-match fallback - and the result
is the raw value of the second invocation: the counter advances by two
and the returned value is the one produced at counter plus one. -/
theorem c10_single_tag_calls_function_twice {C : Type} (beq : PyVal C → PyVal C → Bool)
    (funcs : Funcs C) (runCtrl : RunCtrl C) (strOfCtrl : C → String)
    (n : Nat) (s fn a : String) (F : List String → Option Nat → Counter → PyVal C)
    (ac : Bool) (it : Option Nat) (cnt : Counter)
    (hseg : segsOf s = [Seg.tag fn a])
    (hf : funcs fn = some F)
    (hns : isStrVal (F (tagArgs a) it cnt) = false) :
    evalP beq funcs runCtrl strOfCtrl (n + 1) (.str s) ac it cnt
      = .ok (F (tagArgs a) it (cnt + 1), cnt + 2) := by
  have h := evalString_single_tag funcs strOfCtrl s fn a F ac it cnt hseg hf
  have hstr : evalP beq funcs runCtrl strOfCtrl (n + 1) (.str s) ac it cnt
      = evalString funcs strOfCtrl s ac it cnt := by simp [evalP]
  rw [hstr, h]
  cases hv : F (tagArgs a) it cnt
  case str sv => rw [hv] at hns; simp [isStrVal] at hns
  all_goals rfl

/-- C10 witness: tick returns 100 plus the invocation counter, so the
whole-tag string resolves to 101 - the second call's value - with the
counter advanced from 0 to 2. -/
theorem c10_single_tag_calls_function_twice_witness :
    evalP (pyBeq exBeq) exFuncs exRun exStr 3 (.str "\x7b%tick%\x7d")
      false Option.none 0 = .ok (.int 101, 2) :=
  c10_single_tag_calls_function_twice (pyBeq exBeq) exFuncs exRun exStr 2
    "\x7b%tick%\x7d" "tick" "" _ false Option.none 0 rfl rfl rfl

/-- Splicing semantics as the specification words it for embedded tags:
every tag span is replaced by the text form of its function's value,
counter threaded left to right, literal text kept unchanged. -/
def renderEmbedded {C : Type} (funcs : Funcs C) (strOfCtrl : C → String) :
    List Seg → Option Nat → Counter → Except String (List Char × Counter)
  | [], _, cnt => .ok ([], cnt)
  | Seg.lit ch :: tl, it, cnt =>
    match renderEmbedded funcs strOfCtrl tl it cnt with
    | .ok (o, c2) => .ok (ch :: o, c2)
    | .error e => .error e
  | Seg.tag fn a :: tl, it, cnt =>
    match funcs fn with
    | Option.none => .error (unknownFunctionMsg fn)
    | some F =>
      match renderEmbedded funcs strOfCtrl tl it (cnt + 1) with
      | .ok (o, c2) =>
        .ok ((pyStr strOfCtrl (F (tagArgs a) it cnt)).toList ++ o, c2)
      | .error e => .error e

/-- The substitution scan with the whole-match flag off agrees with the
splicing semantics: every value is coerced to text, no TypeError can
arise, errors propagate. -/
lemma reSub_embedded {C : Type} (funcs : Funcs C) (strOfCtrl : C → String)
    (parsedV : PyVal C) (ac : Bool) (it : Option Nat)
    (hnc : hasCall parsedV = false) :
    ∀ (segs : List Seg) (cnt : Counter) (out : List Char),
    reSub funcs strOfCtrl parsedV ac it false segs cnt out =
      match renderEmbedded funcs strOfCtrl segs it cnt with
      | .ok (o, c2) => .ok (.done (out ++ o) c2)
      | .error e => .error e := by
  intro segs
  induction segs with
  | nil => intro cnt out; simp [reSub, renderEmbedded]
  | cons sg tl ih =>
    intro cnt out
    cases sg with
    | lit ch =>
      rw [show reSub funcs strOfCtrl parsedV ac it false (Seg.lit ch :: tl) cnt out
        = reSub funcs strOfCtrl parsedV ac it false tl cnt (out ++ [ch]) from rfl, ih]
      simp only [renderEmbedded]
      cases renderEmbedded funcs strOfCtrl tl it cnt with
      | ok p => simp
      | error e => simp
    | tag fn a =>
      cases hfn : funcs fn with
      | none => simp [reSub, callFunction, hfn, renderEmbedded]
      | some F =>
        have hred : reSub funcs strOfCtrl parsedV ac it false (Seg.tag fn a :: tl) cnt out
            = reSub funcs strOfCtrl parsedV ac it false tl (cnt + 1)
              (out ++ (pyStr strOfCtrl (F (tagArgs a) it cnt)).toList) := by
          simp [reSub, callFunction, hfn, hnc]
        rw [hred, ih]
        cases hr : renderEmbedded funcs strOfCtrl tl it (cnt + 1) with
        | ok p =>
          cases p with
          | mk o c2 => simp [renderEmbedded, hfn, hr]
        | error e => simp [renderEmbedded, hfn, hr]

/-- C6: a text node whose scan contains a tag embedded among literal
text or several tags (so no match spans the whole string) evaluates to
a string: every tag span replaced by the text form of its function's
value, all literal text unchanged, errors propagating. -/
theorem c6_embedded_tags_spliced {C : Type} (beq : PyVal C → PyVal C → Bool)
    (funcs : Funcs C) (runCtrl : RunCtrl C) (strOfCtrl : C → String)
    (n : Nat) (s : String) (ac : Bool) (it : Option Nat) (cnt : Counter)
    (_htag : (segsOf s).any (fun sg => match sg with
      | Seg.tag _ _ => true | Seg.lit _ => false) = true)
    (hsingle : isSingleTag (segsOf s) = false) :
    evalP beq funcs runCtrl strOfCtrl (n + 1) (.str s) ac it cnt =
      match renderEmbedded funcs strOfCtrl (segsOf s) it cnt with
      | .ok (o, c2) => .ok (.str (String.mk o), c2)
      | .error e => .error e := by
  have hstr : evalP beq funcs runCtrl strOfCtrl (n + 1) (.str s) ac it cnt
      = evalString funcs strOfCtrl s ac it cnt := by simp [evalP]
  rw [hstr]
  simp only [evalString]
  rw [hsingle, reSub_embedded funcs strOfCtrl (.str s) ac it rfl (segsOf s) cnt []]
  cases renderEmbedded funcs strOfCtrl (segsOf s) it cnt with
  | ok p => simp
  | error e => simp

/-- C6 witness: the string id- followed by a seq tag, with seq
registered to return 7, evaluates to the string id-7. -/
theorem c6_embedded_tags_spliced_witness :
    evalP (pyBeq exBeq) exFuncs exRun exStr 3 (.str "id-\x7b% seq %\x7d")
      false Option.none 0 = .ok (.str "id-7", 1) :=
  (c6_embedded_tags_spliced (pyBeq exBeq) exFuncs exRun exStr 2
    "id-\x7b% seq %\x7d" false Option.none 0 rfl rfl).trans rfl

/-! ## Claim C5: mapping evaluation and the iteration index -/

/-- Concatenation of mapping contents. -/
def PyPairs.append {C : Type} : PyPairs C → PyPairs C → PyPairs C
  | .nil, qs => qs
  | .cons k v tl, qs => .cons k v (PyPairs.append tl qs)

instance {C : Type} : Append (PyPairs C) := ⟨PyPairs.append⟩

/-- Appending from the left over a cons. -/
@[simp] lemma pairsAppend_cons {C : Type} (k v : PyVal C) (tl qs : PyPairs C) :
    (PyPairs.cons k v tl) ++ qs = .cons k v (tl ++ qs) := rfl

/-- The empty mapping is a left unit. -/
@[simp] lemma pairsAppend_nil_left {C : Type} (qs : PyPairs C) :
    (PyPairs.nil : PyPairs C) ++ qs = qs := rfl

/-- The empty mapping is a right unit. -/
@[simp] lemma pairsAppend_nil_right {C : Type} (m : PyPairs C) :
    m ++ (PyPairs.nil : PyPairs C) = m := by
  induction m using pairsInductionOn with
  | nil => rfl
  | cons k v tl ih => rw [pairsAppend_cons, ih]

/-- Key membership, as a proposition. -/
def keyMem {C : Type} (k : PyVal C) : PyPairs C → Prop
  | .nil => False
  | .cons key _ tl => k = key ∨ keyMem k tl

/-- No key of the given pairs is Python-equal (same orientation as the
mapping test) to the given value. -/
def notKeyOf {C : Type} (beq : PyVal C → PyVal C → Bool) (k : PyVal C) : PyPairs C → Bool
  | .nil => true
  | .cons key _ tl => !beq k key && notKeyOf beq k tl

/-- Every key distinct from every later key, in the orientation the
mapping membership test uses. -/
def keysDistinct {C : Type} (beq : PyVal C → PyVal C → Bool) : PyPairs C → Bool
  | .nil => true
  | .cons k _ tl => notKeyOf beq k tl && keysDistinct beq tl

/-- Reading off notKeyOf at one member. -/
lemma notKeyOf_mem {C : Type} (beq : PyVal C → PyVal C → Bool) :
    ∀ (ps : PyPairs C) (k k2 : PyVal C), notKeyOf beq k ps = true → keyMem k2 ps →
    beq k k2 = false := by
  intro ps
  induction ps using pairsInductionOn with
  | nil => intro k k2 _ hm; exact absurd hm id
  | cons key val tl ih =>
    intro k k2 h hm
    simp only [notKeyOf, Bool.and_eq_true] at h
    have h1 : beq k key = false := by
      have := h.1
      revert this
      cases beq k key <;> simp
    cases hm with
    | inl he => rw [he]; exact h1
    | inr hm => exact ih k k2 h.2 hm

/-- Membership distributes over appended mappings. -/
lemma pairsHasKey_append {C : Type} (beq : PyVal C → PyVal C → Bool) :
    ∀ (m1 m2 : PyPairs C) (k : PyVal C),
    pairsHasKey beq (m1 ++ m2) k = (pairsHasKey beq m1 k || pairsHasKey beq m2 k) := by
  intro m1
  induction m1 using pairsInductionOn with
  | nil => intro m2 k; simp [pairsHasKey]
  | cons key val tl ih =>
    intro m2 k
    rw [pairsAppend_cons]
    simp [pairsHasKey, ih, Bool.or_assoc]

/-- Assignment at a fresh key appends the pair. -/
lemma odInsert_append {C : Type} (beq : PyVal C → PyVal C → Bool) :
    ∀ (m : PyPairs C) (k v : PyVal C), pairsHasKey beq m k = false →
    odInsert beq m k v = m ++ .cons k v .nil := by
  intro m
  induction m using pairsInductionOn with
  | nil => intro k v h; rfl
  | cons key val tl ih =>
    intro k v h
    have h2 := h
    simp only [pairsHasKey, Bool.or_eq_false_iff] at h2
    simp [odInsert, h, pairsHasKey, h2.1, h2.2, ih k v h2.2]

/-- Appending a singleton then more pairs is a single cons. -/
lemma pairsAppend_cons_nil {C : Type} (m : PyPairs C) (k v : PyVal C) (rest : PyPairs C) :
    (m ++ PyPairs.cons k v PyPairs.nil) ++ rest = m ++ PyPairs.cons k v rest := by
  induction m using pairsInductionOn with
  | nil => rfl
  | cons ka va tla ih => simp [ih]

/-- Plain pair-by-pair evaluation with a fixed iteration index, the
order-preserving semantics the specification describes for mappings
(with the amendment that the current index, not the absence marker, is
what every key and value receives). -/
def evalPairsSpec {C : Type} (eval : EvalFn C) :
    PyPairs C → Option Nat → Counter → Except String (PyPairs C × Counter)
  | .nil, _, cnt => .ok (.nil, cnt)
  | .cons k v tl, it, cnt =>
    match eval k false it cnt with
    | .error e => .error e
    | .ok (ek, c1) =>
      match eval v false it c1 with
      | .error e => .error e
      | .ok (ev, c2) =>
        match evalPairsSpec eval tl it c2 with
        | .error e => .error e
        | .ok (rest, c3) => .ok (.cons ek ev rest, c3)

/-- The mapping evaluator agrees with pair-by-pair evaluation followed
by plain appending, whenever the evaluated keys are pairwise distinct
and all fresh for the accumulator. -/
lemma evalObject_spec {C : Type} (beq : PyVal C → PyVal C → Bool) (eval : EvalFn C) :
    ∀ (ps : PyPairs C) (it : Option Nat) (cnt : Counter) (acc eps : PyPairs C)
      (cnt2 : Counter),
    evalPairsSpec eval ps it cnt = .ok (eps, cnt2) →
    (∀ k, keyMem k eps → pairsHasKey beq acc k = false) →
    keysDistinct beq eps = true →
    evalObject beq eval ps it cnt acc = .ok (.obj (acc ++ eps), cnt2) := by
  intro ps
  induction ps using pairsInductionOn with
  | nil =>
    intro it cnt acc eps cnt2 h hfresh hd
    simp only [evalPairsSpec, Except.ok.injEq, Prod.mk.injEq] at h
    obtain ⟨h1, h2⟩ := h
    rw [← h1, ← h2]
    simp [evalObject]
  | cons k v tl ih =>
    intro it cnt acc eps cnt2 h hfresh hd
    simp only [evalPairsSpec] at h
    cases hk : eval k false it cnt with
    | error e => simp [hk] at h
    | ok p =>
      obtain ⟨ek, c1⟩ := p
      simp only [hk] at h
      cases hv : eval v false it c1 with
      | error e => simp [hv] at h
      | ok q =>
        obtain ⟨ev, c2⟩ := q
        simp only [hv] at h
        cases hs : evalPairsSpec eval tl it c2 with
        | error e => simp [hs] at h
        | ok r =>
          obtain ⟨rest, c3⟩ := r
          simp only [hs, Except.ok.injEq, Prod.mk.injEq] at h
          obtain ⟨h1, h2⟩ := h
          subst h2
          rw [← h1] at hfresh hd ⊢
          have hkfresh : pairsHasKey beq acc ek = false :=
            hfresh ek (Or.inl rfl)
          simp only [keysDistinct, Bool.and_eq_true] at hd
          have step : evalObject beq eval (PyPairs.cons k v tl) it cnt acc
              = evalObject beq eval tl it c2 (odInsert beq acc ek ev) := by
            simp [evalObject, hk, hv]
          rw [step, odInsert_append beq acc ek ev hkfresh]
          rw [ih it c2 (acc ++ PyPairs.cons ek ev PyPairs.nil) rest c3 hs ?hfr hd.2]
          case hfr =>
            intro k2 hm
            rw [pairsHasKey_append]
            have hacc := hfresh k2 (Or.inr hm)
            have hek : beq ek k2 = false := notKeyOf_mem beq rest ek k2 hd.1 hm
            simp [hacc, pairsHasKey, hek]
          rw [pairsAppend_cons_nil]

/-- C5 counterexample to the claim as stated: inside a sequence the
mapping's key and value are evaluated with the enclosing element index
(the it tag resolves to 0), not with the absence marker, under which
the same tag resolves to the string none; the two results differ. -/
theorem c5_counterexample_iteration_reaches_mapping :
    exEval (.arr (.cons (.obj (.cons (.str "k") (.str "\x7b%it%\x7d") .nil)) .nil))
      = .ok (.arr (.cons (.obj (.cons (.str "k") (.int 0) .nil)) .nil), 2)
    ∧ exEval (.obj (.cons (.str "k") (.str "\x7b%it%\x7d") .nil))
      = .ok (.obj (.cons (.str "k") (.str "none") .nil), 1)
    ∧ (PyVal.int 0 : PyVal Unit) ≠ PyVal.str "none" :=
  ⟨rfl, rfl, fun h => nomatch h⟩

/-- C5 as amended: every key and value of a mapping is recursively
evaluated with the current iteration index passed through unchanged
(inside an enclosing sequence that is the element's index; the absence
marker only when none applies), and the evaluated pairs form a fresh
ordered mapping in original order whenever the evaluated keys are
pairwise distinct. -/
theorem c5_mapping_pairs_in_order_with_current_iteration {C : Type}
    (beq : PyVal C → PyVal C → Bool) (funcs : Funcs C) (runCtrl : RunCtrl C)
    (strOfCtrl : C → String) (n : Nat) (ps : PyPairs C) (ac : Bool)
    (it : Option Nat) (cnt : Counter) (eps : PyPairs C) (cnt2 : Counter)
    (h : evalPairsSpec (fun p b i c => evalP beq funcs runCtrl strOfCtrl n p b i c)
      ps it cnt = .ok (eps, cnt2))
    (hd : keysDistinct beq eps = true) :
    evalP beq funcs runCtrl strOfCtrl (n + 1) (.obj ps) ac it cnt
      = .ok (.obj eps, cnt2) := by
  have hobj : evalP beq funcs runCtrl strOfCtrl (n + 1) (.obj ps) ac it cnt
      = evalObject beq (fun p b i c => evalP beq funcs runCtrl strOfCtrl n p b i c)
        ps it cnt .nil := by simp [evalP]
  rw [hobj, evalObject_spec beq _ ps it cnt .nil eps cnt2 h
    (fun k _ => rfl) hd]
  rfl

/-- C5 amended witness: a mapping evaluated with iteration index 5 hands
that index to its value, so the it tag resolves to the number 5. -/
theorem c5_mapping_pairs_in_order_with_current_iteration_witness :
    evalP (pyBeq exBeq) exFuncs exRun exStr 6
      (.obj (.cons (.str "k") (.str "\x7b%it%\x7d") .nil)) false (some 5) 0
      = .ok (.obj (.cons (.str "k") (.int 5) .nil), 2) :=
  c5_mapping_pairs_in_order_with_current_iteration (pyBeq exBeq) exFuncs exRun exStr 5
    (.cons (.str "k") (.str "\x7b%it%\x7d") .nil) false (some 5) 0
    (.cons (.str "k") (.int 5) .nil) 2 rfl rfl

/-! ## Claim C9: documents without tags are fixed points -/

/-- Appending over a cons. -/
@[simp] lemma pyAppend_cons {C : Type} (x : PyVal C) (xs ys : PyList C) :
    (PyList.cons x xs) ++ ys = .cons x (xs ++ ys) := rfl

/-- The empty list is a left unit. -/
@[simp] lemma pyAppend_nil_left {C : Type} (ys : PyList C) :
    (PyList.nil : PyList C) ++ ys = ys := rfl

/-- The empty list is a right unit. -/
@[simp] lemma pyAppend_nil_right {C : Type} (xs : PyList C) :
    xs ++ (PyList.nil : PyList C) = xs := by
  induction xs using pyListInductionOn with
  | nil => rfl
  | cons x tl ih => simp [ih]

/-- Appending a singleton then more elements is a single cons. -/
lemma pyAppend_cons_nil {C : Type} (acc : PyList C) (x : PyVal C) (rest : PyList C) :
    (acc ++ PyList.cons x PyList.nil) ++ rest = acc ++ PyList.cons x rest := by
  induction acc using pyListInductionOn with
  | nil => rfl
  | cons y tl ih => simp [ih]

/-- A literal segment of a scan. -/
def isLitSeg : Seg → Bool
  | .lit _ => true
  | .tag _ _ => false

/-- The characters of the literal segments, in order. -/
def litChars : List Seg → List Char
  | [] => []
  | .lit c :: tl => c :: litChars tl
  | .tag _ _ :: tl => litChars tl

/-- A string in which the scan finds no tag. -/
def noTagStr (s : String) : Bool :=
  (segsOf s).all isLitSeg

/-- Mapping every character to a literal segment keeps the characters. -/
lemma litChars_map (l : List Char) : litChars (l.map Seg.lit) = l := by
  induction l with
  | nil => rfl
  | cons c t ih => simp [litChars, ih]

/-- A scan made of literal segments spells the input itself. -/
lemma scan_lits : ∀ (f : Nat) (s : List Char),
    (scanAux f s).all isLitSeg = true → litChars (scanAux f s) = s := by
  intro f
  induction f with
  | zero => intro s _; exact litChars_map s
  | succ f ih =>
    intro s h
    cases hm : matchTagAt s with
    | some r =>
      obtain ⟨fn, args, rest⟩ := r
      rw [show scanAux (f + 1) s = Seg.tag fn args :: scanAux f rest by
        simp [scanAux, hm]] at h
      simp [isLitSeg] at h
    | none =>
      cases s with
      | nil => simp [scanAux, hm, litChars]
      | cons c t =>
        rw [show scanAux (f + 1) (c :: t) = Seg.lit c :: scanAux f t by
          simp [scanAux, hm]] at h ⊢
        simp only [List.all_cons, isLitSeg, Bool.true_and] at h
        simp [litChars, ih t h]

/-- The substitution scan over literal segments copies them unchanged
and calls nothing. -/
lemma reSub_lits {C : Type} (funcs : Funcs C) (strOfCtrl : C → String)
    (parsedV : PyVal C) (ac : Bool) (it : Option Nat) (single : Bool) :
    ∀ (segs : List Seg) (cnt : Counter) (out : List Char),
    segs.all isLitSeg = true →
    reSub funcs strOfCtrl parsedV ac it single segs cnt out
      = .ok (.done (out ++ litChars segs) cnt) := by
  intro segs
  induction segs with
  | nil => intro cnt out _; simp [reSub, litChars]
  | cons sg tl ih =>
    intro cnt out h
    cases sg with
    | lit ch =>
      simp only [List.all_cons, isLitSeg, Bool.true_and] at h
      rw [show reSub funcs strOfCtrl parsedV ac it single (Seg.lit ch :: tl) cnt out
        = reSub funcs strOfCtrl parsedV ac it single tl cnt (out ++ [ch]) from rfl]
      rw [ih cnt (out ++ [ch]) h]
      simp [litChars]
    | tag fn a =>
      simp [isLitSeg] at h

/-- A string without tags evaluates to itself. -/
lemma evalString_noTag {C : Type} (funcs : Funcs C) (strOfCtrl : C → String)
    (s : String) (ac : Bool) (it : Option Nat) (cnt : Counter)
    (h : noTagStr s = true) :
    evalString funcs strOfCtrl s ac it cnt = .ok (.str s, cnt) := by
  have h2 : (segsOf s).all isLitSeg = true := h
  simp only [evalString]
  rw [reSub_lits funcs strOfCtrl (.str s) ac it (isSingleTag (segsOf s))
    (segsOf s) cnt [] h2]
  have h3 : litChars (segsOf s) = s.toList := scan_lits (s.toList.length + 1) s.toList h2
  simp [h3]

/-- Membership in a Python list. -/
def pyMem {C : Type} (x : PyVal C) : PyList C → Prop
  | .nil => False
  | .cons y tl => x = y ∨ pyMem x tl

/-- Membership of a pair in a mapping. -/
def pairMem {C : Type} (k v : PyVal C) : PyPairs C → Prop
  | .nil => False
  | .cons key val tl => (k = key ∧ v = val) ∨ pairMem k v tl

/-- All elements of a list satisfy a test. -/
def pyAllList {C : Type} (p : PyVal C → Bool) : PyList C → Bool
  | .nil => true
  | .cons x tl => p x && pyAllList p tl

/-- All keys and values of a mapping satisfy a test. -/
def pyAllPairs {C : Type} (p : PyVal C → Bool) : PyPairs C → Bool
  | .nil => true
  | .cons k v tl => p k && p v && pyAllPairs p tl

/-- Reading pyAllList off at one member. -/
lemma pyAllList_mem {C : Type} (p : PyVal C → Bool) :
    ∀ (es : PyList C) (x : PyVal C), pyAllList p es = true → pyMem x es → p x = true := by
  intro es
  induction es using pyListInductionOn with
  | nil => intro x _ hm; exact absurd hm id
  | cons y tl ih =>
    intro x h hm
    simp only [pyAllList, Bool.and_eq_true] at h
    cases hm with
    | inl he => rw [he]; exact h.1
    | inr hm => exact ih x h.2 hm

/-- Reading pyAllPairs off at one member pair. -/
lemma pyAllPairs_mem {C : Type} (p : PyVal C → Bool) :
    ∀ (ps : PyPairs C) (k v : PyVal C), pyAllPairs p ps = true → pairMem k v ps →
    p k = true ∧ p v = true := by
  intro ps
  induction ps using pairsInductionOn with
  | nil => intro k v _ hm; exact absurd hm id
  | cons key val tl ih =>
    intro k v h hm
    simp only [pyAllPairs, Bool.and_eq_true] at h
    cases hm with
    | inl he => rw [he.1, he.2]; exact ⟨h.1.1, h.1.2⟩
    | inr hm => exact ih k v h.2 hm

/-- Pair-by-pair evaluation is the identity when every component
evaluates to itself. -/
lemma evalPairsSpec_id {C : Type} (eval : EvalFn C) :
    ∀ (ps : PyPairs C) (it : Option Nat) (cnt : Counter),
    (∀ k v, pairMem k v ps →
      (∀ c, eval k false it c = .ok (k, c)) ∧ (∀ c, eval v false it c = .ok (v, c))) →
    evalPairsSpec eval ps it cnt = .ok (ps, cnt) := by
  intro ps
  induction ps using pairsInductionOn with
  | nil => intro it cnt _; rfl
  | cons k v tl ih =>
    intro it cnt h
    obtain ⟨hk, hv⟩ := h k v (Or.inl ⟨rfl, rfl⟩)
    simp [evalPairsSpec, hk cnt, hv cnt, ih it cnt (fun k2 v2 hm => h k2 v2 (Or.inr hm))]

/-- One loop step of the sequence evaluator over a non-callable item:
the item is appended and the cursor advances one. -/
lemma evalArray_step_plain {C : Type} (runCtrl : RunCtrl C) (eval : EvalFn C)
    (f i : Nat) (x item : PyVal C) (rest acc : PyList C) (cnt c1 : Counter)
    (hx : eval x true (some i) cnt = .ok (item, c1))
    (hnc : hasCall item = false) :
    evalArray runCtrl eval (f + 1) (.cons x rest) i cnt acc
      = evalArray runCtrl eval f rest (i + 1) c1 (acc ++ .cons item .nil) := by
  cases item with
  | callable nm c => simp [hasCall] at hnc
  | obj ps => simp [evalArray, hx]
  | arr xs => simp [evalArray, hx]
  | str s => simp [evalArray, hx]
  | int n => simp [evalArray, hx]
  | bool b => simp [evalArray, hx]
  | none => simp [evalArray, hx]

/-- The sequence evaluator is the identity on lists of non-callable
fixed points, for any sufficient loop fuel. -/
lemma evalArray_id {C : Type} (runCtrl : RunCtrl C) (eval : EvalFn C) :
    ∀ (es : PyList C) (f i : Nat) (cnt : Counter) (acc : PyList C),
    pyLen es < f →
    (∀ e, pyMem e es → hasCall e = false ∧ ∀ j c, eval e true (some j) c = .ok (e, c)) →
    evalArray runCtrl eval f es i cnt acc = .ok (.arr (acc ++ es), cnt) := by
  intro es
  induction es using pyListInductionOn with
  | nil =>
    intro f i cnt acc hf _
    cases f with
    | zero => simp [pyLen] at hf
    | succ f => simp [evalArray]
  | cons x rest ih =>
    intro f i cnt acc hf hels
    cases f with
    | zero => simp [pyLen] at hf
    | succ f =>
      obtain ⟨hcall, hev⟩ := hels x (Or.inl rfl)
      have hf2 : pyLen rest < f := by simp only [pyLen] at hf; omega
      have hels2 : ∀ e, pyMem e rest →
          hasCall e = false ∧ ∀ j c, eval e true (some j) c = .ok (e, c) :=
        fun e he => hels e (Or.inr he)
      rw [evalArray_step_plain runCtrl eval f i x x rest acc cnt cnt (hev i cnt) hcall,
        ih f (i + 1) cnt (acc ++ PyList.cons x PyList.nil) hf2 hels2,
        pyAppend_cons_nil]

/-- A document containing no tags, no callables, and no colliding
mapping keys, bounded in depth by the fuel. -/
def docGood {C : Type} (beq : PyVal C → PyVal C → Bool) : Nat → PyVal C → Bool
  | 0, _ => false
  | n + 1, v =>
    match v with
    | .obj ps => keysDistinct beq ps && pyAllPairs (fun w => docGood beq n w) ps
    | .arr es => pyAllList (fun w => docGood beq n w) es
    | .str s => noTagStr s
    | .int _ => true
    | .bool _ => true
    | .none => true
    | .callable _ _ => false

/-- Good documents are not callable. -/
lemma docGood_not_callable {C : Type} (beq : PyVal C → PyVal C → Bool) :
    ∀ (n : Nat) (v : PyVal C), docGood beq n v = true → hasCall v = false := by
  intro n v h
  cases n with
  | zero => simp [docGood] at h
  | succ n =>
    cases v with
    | callable nm c => simp [docGood] at h
    | obj ps => rfl
    | arr es => rfl
    | str s => rfl
    | int k => rfl
    | bool b => rfl
    | none => rfl

/-- C9: a document with no tag spans anywhere (and no key collisions,
which a parsed document cannot have) evaluates, at any fuel covering
its depth, to a structurally identical copy: same shape, same keys in
the same order, same elements and scalars, with the invocation counter
untouched. -/
theorem c9_no_tag_document_evaluates_to_itself {C : Type}
    (beq : PyVal C → PyVal C → Bool) (funcs : Funcs C) (runCtrl : RunCtrl C)
    (strOfCtrl : C → String) :
    ∀ (n : Nat) (d : PyVal C) (ac : Bool) (it : Option Nat) (cnt : Counter),
    docGood beq n d = true →
    evalP beq funcs runCtrl strOfCtrl n d ac it cnt = .ok (d, cnt) := by
  intro n
  induction n with
  | zero => intro d ac it cnt h; simp [docGood] at h
  | succ n ih =>
    intro d ac it cnt h
    cases d with
    | obj ps =>
      simp only [docGood, Bool.and_eq_true] at h
      obtain ⟨hd, hall⟩ := h
      have hobj : evalP beq funcs runCtrl strOfCtrl (n + 1) (.obj ps) ac it cnt
          = evalObject beq (fun p b i c => evalP beq funcs runCtrl strOfCtrl n p b i c)
            ps it cnt .nil := by simp [evalP]
      have hels : ∀ k v : PyVal C, pairMem k v ps →
          (∀ c, evalP beq funcs runCtrl strOfCtrl n k false it c = .ok (k, c)) ∧
          (∀ c, evalP beq funcs runCtrl strOfCtrl n v false it c = .ok (v, c)) := by
        intro k v hm
        obtain ⟨hk, hv⟩ := pyAllPairs_mem (fun w => docGood beq n w) ps k v hall hm
        exact ⟨fun c => ih k false it c hk, fun c => ih v false it c hv⟩
      have hspec := evalPairsSpec_id
        (fun p b i c => evalP beq funcs runCtrl strOfCtrl n p b i c) ps it cnt hels
      rw [hobj, evalObject_spec beq
        (fun p b i c => evalP beq funcs runCtrl strOfCtrl n p b i c)
        ps it cnt .nil ps cnt hspec (fun k _ => rfl) hd]
      rfl
    | arr es =>
      simp only [docGood] at h
      have harr : evalP beq funcs runCtrl strOfCtrl (n + 1) (.arr es) ac it cnt
          = evalArray runCtrl (fun p b i c => evalP beq funcs runCtrl strOfCtrl n p b i c)
            (pyLen es + 1) es 0 cnt .nil := by simp [evalP]
      have hels : ∀ e : PyVal C, pyMem e es → hasCall e = false ∧
          ∀ j c, evalP beq funcs runCtrl strOfCtrl n e true (some j) c = .ok (e, c) := by
        intro e he
        have hg := pyAllList_mem (fun w => docGood beq n w) es e h he
        exact ⟨docGood_not_callable beq n e hg, fun j c => ih e true (some j) c hg⟩
      rw [harr, evalArray_id runCtrl
        (fun p b i c => evalP beq funcs runCtrl strOfCtrl n p b i c)
        es (pyLen es + 1) 0 cnt .nil (Nat.lt_succ_self _) hels]
      rfl
    | str s =>
      simp only [docGood] at h
      have hstr : evalP beq funcs runCtrl strOfCtrl (n + 1) (.str s) ac it cnt
          = evalString funcs strOfCtrl s ac it cnt := by simp [evalP]
      rw [hstr, evalString_noTag funcs strOfCtrl s ac it cnt h]
    | int k => simp [evalP]
    | bool b => simp [evalP]
    | none => simp [evalP]
    | callable nm c => simp [docGood] at h

/-- C9 witness: a two-key mapping holding a scalar and a sequence of a
plain string and a null, all without tags, comes back unchanged with
the counter still zero. -/
theorem c9_no_tag_document_evaluates_to_itself_witness :
    evalP (pyBeq exBeq) exFuncs exRun exStr 3
      (.obj (.cons (.str "a") (.int 1)
        (.cons (.str "b") (.arr (.cons (.str "x") (.cons .none .nil))) .nil)))
      false Option.none 0
      = .ok (.obj (.cons (.str "a") (.int 1)
        (.cons (.str "b") (.arr (.cons (.str "x") (.cons .none .nil))) .nil)), 0) :=
  c9_no_tag_document_evaluates_to_itself (pyBeq exBeq) exFuncs exRun exStr 3
    (.obj (.cons (.str "a") (.int 1)
      (.cons (.str "b") (.arr (.cons (.str "x") (.cons .none .nil))) .nil)))
    false Option.none 0 rfl

/-! ## Claim C8: unknown function names -/

/-- The characters of a standalone tag with the given function name and
no arguments. -/
def tagChars (fc : List Char) : List Char :=
  '\x7b' :: '%' :: (fc ++ ['%', '\x7d'])

/-- A nonempty run of word characters, as a function name must be. -/
def isWordName (fc : List Char) : Bool :=
  !fc.isEmpty && fc.all isWordC

/-- A word character is not whitespace. -/
lemma word_not_space (c : Char) (h : isWordC c = true) : isSpaceC c = false := by
  cases hs : isSpaceC c
  · rfl
  · exfalso
    have hs2 : c = ' ' ∨ c = '\t' ∨ c = '\n' ∨ c = '\r' ∨ c = '\x0b' ∨ c = '\x0c' := by
      have := hs
      simp only [isSpaceC, Bool.or_eq_true, decide_eq_true_eq] at this
      tauto
    rcases hs2 with rfl | rfl | rfl | rfl | rfl | rfl <;> exact absurd h (by decide)

/-- takeWhile collects exactly a satisfying block closed by a failing
element. -/
lemma takeWhile_append_all {α : Type} (p : α → Bool) :
    ∀ (l : List α) (b : α) (r : List α), (∀ a ∈ l, p a = true) → p b = false →
    (l ++ b :: r).takeWhile p = l := by
  intro l
  induction l with
  | nil => intro b r _ hb; simp [List.takeWhile_cons, hb]
  | cons a t ih =>
    intro b r hl hb
    have ha : p a = true := hl a (List.mem_cons_self a t)
    simp [List.takeWhile_cons, ha, ih b r (fun x hx => hl x (List.mem_cons_of_mem a hx)) hb]

/-- Dropping the length of the left part of an append. -/
lemma drop_len_append {α : Type} : ∀ (l r : List α), (l ++ r).drop l.length = r := by
  intro l
  induction l with
  | nil => intro r; rfl
  | cons a t ih => intro r; simp [ih r]

/-- TAG_PATTERN matches a standalone tag with any word-character name
and captures no argument text. -/
lemma matchTagAt_tagChars (fc : List Char) (h : isWordName fc = true) :
    matchTagAt (tagChars fc) = some (String.mk fc, "", []) := by
  obtain ⟨c, cs, rfl⟩ : ∃ c cs, fc = c :: cs := by
    cases fc with
    | nil => simp [isWordName] at h
    | cons c cs => exact ⟨c, cs, rfl⟩
  simp only [isWordName, List.isEmpty_cons, Bool.not_false, Bool.true_and,
    List.all_eq_true] at h
  have hc : isWordC c = true := h c (List.mem_cons_self c cs)
  have hsp : isSpaceC c = false := word_not_space c hc
  have hdw : List.dropWhile isSpaceC (c :: (cs ++ ['%', '\x7d']))
      = c :: (cs ++ ['%', '\x7d']) := by
    simp [List.dropWhile_cons, hsp]
  have htw : List.takeWhile isWordC (c :: (cs ++ ['%', '\x7d'])) = c :: cs := by
    have h2 := takeWhile_append_all isWordC (c :: cs) '%' ['\x7d'] h (by decide)
    simpa using h2
  have hdrop : List.drop (c :: cs).length (c :: (cs ++ ['%', '\x7d']))
      = ['%', '\x7d'] := by
    have h2 := drop_len_append (c :: cs) (['%', '\x7d'] : List Char)
    simp only [List.cons_append] at h2
    exact h2
  simp only [tagChars, matchTagAt, List.cons_append, hdw, htw, hdrop]
  rfl

/-- The scan of the empty input is empty at every fuel. -/
lemma scanAux_nil : ∀ f, scanAux f [] = [] := by
  intro f
  cases f with
  | zero => rfl
  | succ f => rfl

/-- The scan of a standalone tag is one tag segment. -/
lemma scanAux_tagChars (fc : List Char) (h : isWordName fc = true) :
    ∀ f, scanAux (f + 1) (tagChars fc) = [Seg.tag (String.mk fc) ""] := by
  intro f
  simp [scanAux, matchTagAt_tagChars fc h, scanAux_nil]

/-- Segment decomposition of the standalone tag string. -/
lemma segsOf_tagChars (fc : List Char) (h : isWordName fc = true) :
    segsOf (String.mk (tagChars fc)) = [Seg.tag (String.mk fc) ""] := by
  show scanAux ((tagChars fc).length + 1) (tagChars fc) = _
  exact scanAux_tagChars fc h (tagChars fc).length

/-- Segment decomposition of the tag embedded after a literal x. -/
lemma segsOf_embedded (fc : List Char) (h : isWordName fc = true) :
    segsOf (String.mk ('x' :: tagChars fc))
      = [Seg.lit 'x', Seg.tag (String.mk fc) ""] := by
  show scanAux (('x' :: tagChars fc).length + 1) ('x' :: tagChars fc) = _
  rw [show ('x' :: tagChars fc).length + 1 = ((tagChars fc).length + 1) + 1 from by
    simp]
  rw [show scanAux (((tagChars fc).length + 1) + 1) ('x' :: tagChars fc)
      = Seg.lit 'x' :: scanAux ((tagChars fc).length + 1) (tagChars fc) from by
    simp [scanAux, show matchTagAt ('x' :: tagChars fc) = none from rfl]]
  rw [scanAux_tagChars fc h (tagChars fc).length]

/-- C8: a tag naming a function absent from the registry fails with the
unknown-function error naming exactly that function, in every position:
standalone string, embedded in text, mapping key, mapping value, and
sequence element; in the composite positions the error aborts the whole
evaluation. -/
theorem c8_unknown_function_raises_everywhere {C : Type}
    (beq : PyVal C → PyVal C → Bool) (funcs : Funcs C) (runCtrl : RunCtrl C)
    (strOfCtrl : C → String) (fc : List Char) (n : Nat) (ac : Bool)
    (it : Option Nat) (cnt : Counter)
    (hw : isWordName fc = true)
    (hf : funcs (String.mk fc) = Option.none) :
    (evalP beq funcs runCtrl strOfCtrl (n + 1)
        (.str (String.mk (tagChars fc))) ac it cnt
      = .error (unknownFunctionMsg (String.mk fc)))
    ∧ (evalP beq funcs runCtrl strOfCtrl (n + 1)
        (.str (String.mk ('x' :: tagChars fc))) ac it cnt
      = .error (unknownFunctionMsg (String.mk fc)))
    ∧ (evalP beq funcs runCtrl strOfCtrl (n + 2)
        (.obj (.cons (.str (String.mk (tagChars fc))) (.str "v") .nil)) ac it cnt
      = .error (unknownFunctionMsg (String.mk fc)))
    ∧ (evalP beq funcs runCtrl strOfCtrl (n + 2)
        (.obj (.cons (.str "k") (.str (String.mk (tagChars fc))) .nil)) ac it cnt
      = .error (unknownFunctionMsg (String.mk fc)))
    ∧ (evalP beq funcs runCtrl strOfCtrl (n + 2)
        (.arr (.cons (.str (String.mk (tagChars fc))) .nil)) ac it cnt
      = .error (unknownFunctionMsg (String.mk fc))) := by
  have hstr : ∀ (m : Nat) (ac2 : Bool) (it2 : Option Nat) (cnt2 : Counter),
      evalP beq funcs runCtrl strOfCtrl (m + 1)
        (.str (String.mk (tagChars fc))) ac2 it2 cnt2
      = .error (unknownFunctionMsg (String.mk fc)) := by
    intro m ac2 it2 cnt2
    have he : evalP beq funcs runCtrl strOfCtrl (m + 1)
        (.str (String.mk (tagChars fc))) ac2 it2 cnt2
        = evalString funcs strOfCtrl (String.mk (tagChars fc)) ac2 it2 cnt2 := by
      simp [evalP]
    rw [he]
    simp [evalString, segsOf_tagChars fc hw, isSingleTag, reSub, callFunction, hf]
  have hkey : ∀ (m : Nat) (it2 : Option Nat) (cnt2 : Counter),
      evalP beq funcs runCtrl strOfCtrl (m + 1) (.str "k") false it2 cnt2
      = .ok (.str "k", cnt2) := by
    intro m it2 cnt2
    have he : evalP beq funcs runCtrl strOfCtrl (m + 1) (.str "k") false it2 cnt2
        = evalString funcs strOfCtrl "k" false it2 cnt2 := by simp [evalP]
    rw [he, evalString_noTag funcs strOfCtrl "k" false it2 cnt2 rfl]
  refine ⟨hstr n ac it cnt, ?_, ?_, ?_, ?_⟩
  · have he : evalP beq funcs runCtrl strOfCtrl (n + 1)
        (.str (String.mk ('x' :: tagChars fc))) ac it cnt
        = evalString funcs strOfCtrl (String.mk ('x' :: tagChars fc)) ac it cnt := by
      simp [evalP]
    rw [he]
    simp [evalString, segsOf_embedded fc hw, scanAux_tagChars fc hw, isSingleTag,
      reSub, callFunction, hasCall, hf]
  · show evalP beq funcs runCtrl strOfCtrl ((n + 1) + 1)
        (.obj (.cons (.str (String.mk (tagChars fc))) (.str "v") .nil)) ac it cnt
      = .error (unknownFunctionMsg (String.mk fc))
    have he : evalP beq funcs runCtrl strOfCtrl ((n + 1) + 1)
        (.obj (.cons (.str (String.mk (tagChars fc))) (.str "v") .nil)) ac it cnt
        = evalObject beq
            (fun p b i c => evalP beq funcs runCtrl strOfCtrl (n + 1) p b i c)
            (.cons (.str (String.mk (tagChars fc))) (.str "v") .nil) it cnt .nil := by
      simp [evalP]
    rw [he]
    simp [evalObject, hstr n false it cnt]
  · show evalP beq funcs runCtrl strOfCtrl ((n + 1) + 1)
        (.obj (.cons (.str "k") (.str (String.mk (tagChars fc))) .nil)) ac it cnt
      = .error (unknownFunctionMsg (String.mk fc))
    have he : evalP beq funcs runCtrl strOfCtrl ((n + 1) + 1)
        (.obj (.cons (.str "k") (.str (String.mk (tagChars fc))) .nil)) ac it cnt
        = evalObject beq
            (fun p b i c => evalP beq funcs runCtrl strOfCtrl (n + 1) p b i c)
            (.cons (.str "k") (.str (String.mk (tagChars fc))) .nil) it cnt .nil := by
      simp [evalP]
    rw [he]
    simp [evalObject, hkey n it cnt, hstr n false it (cnt : Counter)]
  · show evalP beq funcs runCtrl strOfCtrl ((n + 1) + 1)
        (.arr (.cons (.str (String.mk (tagChars fc))) .nil)) ac it cnt
      = .error (unknownFunctionMsg (String.mk fc))
    have he : evalP beq funcs runCtrl strOfCtrl ((n + 1) + 1)
        (.arr (.cons (.str (String.mk (tagChars fc))) .nil)) ac it cnt
        = evalArray runCtrl
            (fun p b i c => evalP beq funcs runCtrl strOfCtrl (n + 1) p b i c)
            (pyLen ((.cons (.str (String.mk (tagChars fc))) .nil : PyList C)) + 1)
            (.cons (.str (String.mk (tagChars fc))) .nil) 0 cnt .nil := by
      simp [evalP]
    rw [he]
    simp [evalArray, pyLen, hstr n true (some 0) cnt]

/-- C8 witness: the tag of the unregistered name nope fails with the
unknown-function error naming nope in all five positions. -/
theorem c8_unknown_function_raises_everywhere_witness :
    (evalP (pyBeq exBeq) exFuncs exRun exStr 4
        (.str (String.mk (tagChars ['n', 'o', 'p', 'e']))) false Option.none 0
      = .error (unknownFunctionMsg (String.mk ['n', 'o', 'p', 'e'])))
    ∧ (evalP (pyBeq exBeq) exFuncs exRun exStr 4
        (.str (String.mk ('x' :: tagChars ['n', 'o', 'p', 'e']))) false Option.none 0
      = .error (unknownFunctionMsg (String.mk ['n', 'o', 'p', 'e'])))
    ∧ (evalP (pyBeq exBeq) exFuncs exRun exStr 5
        (.obj (.cons (.str (String.mk (tagChars ['n', 'o', 'p', 'e'])))
          (.str "v") .nil)) false Option.none 0
      = .error (unknownFunctionMsg (String.mk ['n', 'o', 'p', 'e'])))
    ∧ (evalP (pyBeq exBeq) exFuncs exRun exStr 5
        (.obj (.cons (.str "k")
          (.str (String.mk (tagChars ['n', 'o', 'p', 'e']))) .nil)) false Option.none 0
      = .error (unknownFunctionMsg (String.mk ['n', 'o', 'p', 'e'])))
    ∧ (evalP (pyBeq exBeq) exFuncs exRun exStr 5
        (.arr (.cons (.str (String.mk (tagChars ['n', 'o', 'p', 'e']))) .nil))
        false Option.none 0
      = .error (unknownFunctionMsg (String.mk ['n', 'o', 'p', 'e']))) :=
  c8_unknown_function_raises_everywhere (pyBeq exBeq) exFuncs exRun exStr
    ['n', 'o', 'p', 'e'] 3 false Option.none 0 rfl rfl

end DummyData
